import Mathlib

/-!
Verification of the in-memory manifest engine (`blobrepo/src/memory_manifest.rs`).

The development shallowly embeds the engine: `MemoryManifestEntry` becomes the
inductive `Entry`, the blobstore becomes an association list from identifiers to
raw bytes, and the asynchronous `save` / `convert_treenode` operations become
pure state-passing functions.  Machinery that lives outside the embedded file
(node-hash display, the upload hasher, `BlobManifest::load`, path types) is
modelled from the specification's description of those interfaces, and each such
definition is marked `Modelled from the spec:` in its doc comment.
-/

/-- Path-segment names (`MPathElement`) are byte sequences. -/
abbrev Name := List Nat

/-- Blobstore model: an association list from content identifier to raw bytes.
New writes are prepended, so a write shadows any stale binding of the same key. -/
abbrev Store := List (Nat × List Nat)

/-- Model of `RepoPath`: the list of path segments from the root; `RepoPath::root()` is `[]`. -/
abbrev RepoPath := List Name

/-- Model of `mercurial_types::Type`: the entry type tags. -/
inductive FileType where
  | file
  | executable
  | symlink
  | tree
deriving DecidableEq

/-- Model of `HgBlobEntry`: an entry handle carrying an optional basename,
a content identifier (node hash) and a type. -/
structure HgBlobEntry where
  name : Option Name
  hash : Nat
  ty : FileType
deriving DecidableEq

/-- Failure outcomes of the engine.  `unresolvedConflicts`, `manifestMissing` and
`unchangedManifest` are the source's `ErrorKind` variants (the spec calls the
latter two `TreeMissing` and `UnchangedManifestMissingParent`).  `notATree`
models the `panic!` of `insert_entry` on a non-Tree, `assertionFailed` models
the `assert!(p2.is_none(), ..)` in `save`, and `outOfFuel` is the recursion
cutoff of the embedded parent loader (the Rust loader recurses unboundedly; with
enough fuel the embedding agrees with it on every acyclic store). -/
inductive ErrorKind where
  | unresolvedConflicts
  | manifestMissing (id : Nat)
  | unchangedManifest
  | notATree
  | assertionFailed
  | outOfFuel
deriving DecidableEq

/-- Model of `MemoryManifestEntry`: a persisted blob reference, an unresolved
conflict, or an in-memory tree node (`MemTree`) whose children are kept in a
name-ordered map (`BTreeMap`), here a sorted association list. -/
inductive Entry where
  | blob (b : HgBlobEntry)
  | conflict (alts : List Entry)
  | memTree (children : List (Name × Entry)) (p1 p2 : Option Nat) (modified : Bool)

/-- Byte-wise lexicographic order on names, the `Ord` instance `BTreeMap` sorts by. -/
def nameLt : Name → Name → Bool
  | [], [] => false
  | [], _ :: _ => true
  | _ :: _, [] => false
  | a :: as, b :: bs => if a < b then true else if b < a then false else nameLt as bs

/-- Model of `BTreeMap::insert`: insert or overwrite a binding, keeping keys sorted. -/
def childInsert (n : Name) (e : Entry) : List (Name × Entry) → List (Name × Entry)
  | [] => [(n, e)]
  | (m, f) :: rest =>
    if n = m then (n, e) :: rest
    else if nameLt n m then (n, e) :: (m, f) :: rest
    else (m, f) :: childInsert n e rest

/-- Model of `BTreeMap` lookup by name. -/
def childLookup (n : Name) : List (Name × Entry) → Option Entry
  | [] => none
  | (m, e) :: rest => if n = m then some e else childLookup n rest

/-- Lowercase hex digit character for a value below 16. -/
def hexDigit (d : Nat) : Nat := if d < 10 then 48 + d else 87 + d

/-- Little-endian hex digits of `h`, padded/truncated to `n` characters. -/
def encodeLE : Nat → Nat → List Nat
  | _, 0 => []
  | h, n + 1 => hexDigit (h % 16) :: encodeLE (h / 16) n

/-- Modelled from the spec: the `content-identifier-as-hex` rendering used in the
wire format — a 40-character lowercase hex string, most significant digit first
(the node-hash Display impl is outside the embedded file). -/
def hexEncode (h : Nat) : List Nat := (encodeLE h 40).reverse

/-- Numeric value of a lowercase hex digit character. -/
def hexVal (c : Nat) : Nat := if c < 58 then c - 48 else c - 87

/-- Decode a big-endian hex string to a number. -/
def hexDecode (l : List Nat) : Nat := l.foldl (fun a c => a * 16 + hexVal c) 0

/-- Modelled from the spec: the single-character type tag distinguishing regular
file / executable / symlink / directory in a tree record (the Display impl of
`Type` is outside the embedded file). -/
def typeTag : FileType → Nat
  | .file => 102
  | .executable => 120
  | .symlink => 108
  | .tree => 116

/-- Inverse of `typeTag`, used by the listing parser. -/
def tagType (c : Nat) : Option FileType :=
  if c = 102 then some .file
  else if c = 120 then some .executable
  else if c = 108 then some .symlink
  else if c = 116 then some .tree
  else none

/-- Modelled from the spec: the store's content-derived identifier of a blob — a
deterministic function of the bytes alone, ranging over 160-bit values (the
actual hasher sits in the upload machinery, outside the embedded file). -/
def hashBytes (bs : List Nat) : Nat :=
  bs.foldl (fun a b => (a * 257 + b + 1) % (16 ^ 40)) 7

/-- Raw `get_blob`: first binding of `id` in the store, if any. -/
def storeLookup (st : Store) (id : Nat) : Option (List Nat) :=
  match st with
  | [] => none
  | (k, v) :: rest => if id = k then some v else storeLookup rest id

/-- Split a byte sequence into LF-terminated lines (a final unterminated
fragment also counts as a line). -/
def splitLines : List Nat → List (List Nat)
  | [] => []
  | b :: rest =>
    if b = 10 then [] :: splitLines rest
    else
      match splitLines rest with
      | [] => [[b]]
      | l :: ls => (b :: l) :: ls

/-- One listing record: child name, content identifier, type. -/
abbrev LRec := Name × Nat × FileType

/-- Modelled from the spec: parse one wire-format record
`name-bytes NUL 40-hex-chars type-tag` back into a listing record. -/
def parseRecord (l : List Nat) : Option LRec :=
  let nm := l.takeWhile (fun b => b != 0)
  let rest := l.drop (nm.length + 1)
  match rest.getLast? with
  | none => none
  | some tag =>
    match tagType tag with
    | none => none
    | some t =>
      if nm.length = 0 ∨ rest.length ≠ 41 then none
      else some (nm, hexDecode rest.dropLast, t)

/-- Modelled from the spec: parse a stored tree blob into its listing. -/
def parseListing (bs : List Nat) : Option (List LRec) :=
  (splitLines bs).mapM parseRecord

/-- Modelled from the spec: the store interface `load_tree(id) -> Option<Listing>`
(`BlobManifest::load` plus listing, outside the embedded file). -/
def loadListing (st : Store) (id : Nat) : Option (List LRec) :=
  (storeLookup st id).bind parseListing

/-- Model of `path.mpath().map(MPath::basename)`: the last segment, none at the root. -/
def pathBasename (p : RepoPath) : Option Name := p.getLast?

/-- Model of `extend_repopath_with_dir`: append one directory segment. -/
def extendRepoPath (p : RepoPath) (d : Name) : RepoPath := p ++ [d]

/-- The serialization loop of `save`: for each `(path_elem, entry)` pair in map
order, append the name bytes and then `write!("\x7b0}{}{}\n", hash, type)` — a NUL,
the hex of the entry's hash, its type tag, and a LF. -/
def serializeEntries : List (Name × HgBlobEntry) → List Nat
  | [] => []
  | (n, r) :: rest => n ++ 0 :: hexEncode r.hash ++ typeTag r.ty :: 10 :: serializeEntries rest

/-- Modelled from the spec: one child record of the canonical wire format,
`<name bytes><NUL><content-identifier-as-hex><single-character-type-tag><LF>`. -/
def specRecord (n : Name) (id : Nat) (t : FileType) : List Nat :=
  n ++ [0] ++ hexEncode id ++ [typeTag t] ++ [10]

/-- Modelled from the spec: the concatenation of all child records, no header and
no separator beyond each record's own LF. -/
def specSerialize (rs : List (Name × HgBlobEntry)) : List Nat :=
  (rs.map (fun nr => specRecord nr.1 nr.2.hash nr.2.ty)).flatten

/-- Outcome of `MemoryManifestEntry::save`: the entry the borrowed receiver still
holds afterwards, the store after any writes, and the returned reference or error. -/
structure SaveOut where
  entry : Entry
  store : Store
  result : Except ErrorKind HgBlobEntry

/-- Outcome of the `join_all` fan-out over one node's children in `save`. -/
structure SaveChildrenOut where
  children : List (Name × Entry)
  store : Store
  result : Except ErrorKind (List (Name × HgBlobEntry))

mutual

/-- Model of `MemoryManifestEntry::save`.  A `blob` resolves to itself, a
`conflict` fails with `UnresolvedConflicts`, a modified `memTree` saves its
children, serializes the resulting listing, writes it to the store under its
content-derived identifier and returns that reference, and an unmodified
`memTree` asserts `p2 = none` and passes through `p1` without touching the
store, failing with `UnchangedManifest` when `p1` is absent. -/
def saveE : Entry → RepoPath → Store → SaveOut
  | .blob b, _, st => ⟨.blob b, st, .ok b⟩
  | .conflict alts, _, st => ⟨.conflict alts, st, .error .unresolvedConflicts⟩
  | .memTree cs p1 p2 true, path, st =>
    match saveChildren cs path st with
    | ⟨cs', st', .error e⟩ => ⟨.memTree cs' p1 p2 true, st', .error e⟩
    | ⟨cs', st', .ok rs⟩ =>
      let bytes := serializeEntries rs
      let nid := hashBytes bytes
      ⟨.memTree cs' p1 p2 true, (nid, bytes) :: st',
        .ok ⟨pathBasename path, nid, .tree⟩⟩
  | .memTree cs p1 p2 false, path, st =>
    if p2.isSome then ⟨.memTree cs p1 p2 false, st, .error .assertionFailed⟩
    else
      match p1 with
      | none => ⟨.memTree cs p1 p2 false, st, .error .unchangedManifest⟩
      | some h => ⟨.memTree cs p1 p2 false, st, .ok ⟨pathBasename path, h, .tree⟩⟩

/-- The recursive child fan-out of `save`: each child is saved at the extended
path; the first error wins and the store threads through left to right. -/
def saveChildren : List (Name × Entry) → RepoPath → Store → SaveChildrenOut
  | [], _, st => ⟨[], st, .ok []⟩
  | (n, e) :: rest, path, st =>
    match saveE e (extendRepoPath path n) st with
    | ⟨e', st', .error err⟩ => ⟨(n, e') :: rest, st', .error err⟩
    | ⟨e', st', .ok r⟩ =>
      match saveChildren rest path st' with
      | ⟨rest', st'', .error err⟩ => ⟨(n, e') :: rest', st'', .error err⟩
      | ⟨rest', st'', .ok rs⟩ => ⟨(n, e') :: rest', st'', .ok ((n, r) :: rs)⟩

end

/-- The child fold of `convert_treenode`: each listed child becomes a recursively
converted subtree (directories) or a `blob` leaf, inserted into the accumulated
children map in listing order. -/
def convertFold (conv : Nat → Except ErrorKind Entry) :
    List LRec → List (Name × Entry) → Except ErrorKind (List (Name × Entry))
  | [], acc => .ok acc
  | (n, h, t) :: rest, acc =>
    match
      (match t with
       | .tree => conv h
       | _ => .ok (.blob ⟨some n, h, t⟩)) with
    | .error e => .error e
    | .ok ent => convertFold conv rest (childInsert n ent acc)

/-- Model of `MemoryManifestEntry::convert_treenode`: load the listing of
`id` (failing with `ManifestMissing id` when absent), convert every child, and
wrap the result as an unmodified tree with `p1 = some id`. -/
def convertTreenode : Nat → Store → Nat → Except ErrorKind Entry
  | 0, _, _ => .error .outOfFuel
  | fuel + 1, st, id =>
    match loadListing st id with
    | none => .error (.manifestMissing id)
    | some listing =>
      match convertFold (convertTreenode fuel st) listing [] with
      | .error e => .error e
      | .ok cs => .ok (.memTree cs (some id) none false)

/-- Model of the `insert_entry` helper: on a `memTree`, set `modified` and insert
the binding; on anything else fail (`panic!("Inserting into a non-Tree")`,
surfaced as the spec's `NotATree`). -/
def insert_entry (tree : Entry) (path : Name) (entry : Entry) : Except ErrorKind Entry :=
  match tree with
  | .memTree children p1 p2 _ => .ok (.memTree (childInsert path entry children) p1 p2 true)
  | _ => .error .notATree

/-- Model of `MemoryRootManifest::new`: zero parents give an empty unmodified
tree, one parent delegates to the parent loader, and two parents load both trees
and wrap them as a root-level conflict. -/
def newRoot (fuel : Nat) (st : Store) (mp1 mp2 : Option Nat) : Except ErrorKind Entry :=
  match mp1, mp2 with
  | none, none => .ok (.memTree [] none none false)
  | some p, none => convertTreenode fuel st p
  | none, some p => convertTreenode fuel st p
  | some a, some b =>
    match convertTreenode fuel st a with
    | .error e => .error e
    | .ok ta =>
      match convertTreenode fuel st b with
      | .error e => .error e
      | .ok tb => .ok (.conflict [ta, tb])

/-- Model of `MemoryRootManifest::save`: save the root entry at `RepoPath::root()`. -/
def rootSave (e : Entry) (st : Store) : SaveOut := saveE e [] st

/-- Lookup of a name in a loaded listing, as the test's `Manifest::lookup` does. -/
def listingFind (n : Name) (l : List LRec) : Option LRec :=
  l.find? (fun r => r.1 = n)

/-- The internal-consistency invariant of in-memory manifests: every `memTree`
with `modified = false` has `p2 = none`, recursively. -/
inductive EntryInv : Entry → Prop
  | blob (b) : EntryInv (.blob b)
  | conflict (alts) : (∀ e ∈ alts, EntryInv e) → EntryInv (.conflict alts)
  | memTree (cs) (p1 p2 : Option Nat) (m : Bool) :
      (m = false → p2 = none) → (∀ x ∈ cs, EntryInv x.2) → EntryInv (.memTree cs p1 p2 m)

/-- Entries reachable through the engine's operations: leaf references,
zero/one/two-parent construction, parent loading, and insertion of a reachable
child into a reachable tree. -/
inductive Reachable : Entry → Prop
  | ofBlob (b) : Reachable (.blob b)
  | ofNewRoot (fuel st mp1 mp2 e) : newRoot fuel st mp1 mp2 = .ok e → Reachable e
  | ofConvert (fuel st id e) : convertTreenode fuel st id = .ok e → Reachable e
  | ofInsert (t n c t') : Reachable t → Reachable c → insert_entry t n c = .ok t' → Reachable t'

/-! ### Helper lemmas: the children map -/

lemma childLookup_childInsert_self (n : Name) (c : Entry) (cs : List (Name × Entry)) :
    childLookup n (childInsert n c cs) = some c := by
  induction cs with
  | nil => simp [childInsert, childLookup]
  | cons hd tl ih =>
    obtain ⟨m, f⟩ := hd
    by_cases h1 : n = m
    · simp [childInsert, h1, childLookup]
    · by_cases h2 : nameLt n m <;> simp [childInsert, h1, h2, childLookup, ih]

lemma childLookup_childInsert_ne (n n' : Name) (hne : n' ≠ n) (c : Entry)
    (cs : List (Name × Entry)) :
    childLookup n' (childInsert n c cs) = childLookup n' cs := by
  induction cs with
  | nil => simp [childInsert, childLookup, hne]
  | cons hd tl ih =>
    obtain ⟨m, f⟩ := hd
    by_cases h1 : n = m
    · subst h1
      simp [childInsert, childLookup, hne]
    · have h1' : ¬(m = n) := fun hh => h1 hh.symm
      by_cases h2 : nameLt n m <;> by_cases h3 : n' = m <;>
        simp [childInsert, childLookup, h1, h1', h2, h3, ih, hne]

lemma mem_childInsert {x : Name × Entry} {n : Name} {c : Entry} {cs : List (Name × Entry)}
    (h : x ∈ childInsert n c cs) : x = (n, c) ∨ x ∈ cs := by
  induction cs with
  | nil => simpa [childInsert] using h
  | cons hd tl ih =>
    obtain ⟨m, f⟩ := hd
    by_cases h1 : n = m
    · simp [childInsert, h1] at h
      rcases h with h | h
      · exact .inl (by simp [h, h1])
      · exact .inr (by simp [h])
    · by_cases h2 : nameLt n m
      · simp [childInsert, h1, h2] at h
        rcases h with h | h | h
        · exact .inl (by simp [h])
        · exact .inr (by simp [h])
        · exact .inr (by simp [h])
      · simp [childInsert, h1, h2] at h
        rcases h with h | h
        · exact .inr (by simp [h])
        · rcases ih h with h' | h'
          · exact .inl h'
          · exact .inr (by simp [h'])

/-! ### Helper lemmas: sizes -/

lemma sizeOf_snd_lt_of_mem {cs : List (Name × Entry)} {x : Name × Entry} (h : x ∈ cs) :
    sizeOf x.2 < sizeOf cs := by
  have hx := List.sizeOf_lt_of_mem h
  obtain ⟨n, e⟩ := x
  simp at hx ⊢
  omega

/-! ### C10: save leaves the in-memory manifest unchanged -/

lemma frame_aux : ∀ k : Nat,
    (∀ e : Entry, sizeOf e ≤ k → ∀ path st, (saveE e path st).entry = e) ∧
    (∀ cs : List (Name × Entry), sizeOf cs ≤ k →
       ∀ path st, (saveChildren cs path st).children = cs) := by
  intro k
  induction k using Nat.strong_induction_on with
  | _ k ih =>
    constructor
    · intro e he path st
      match e with
      | .blob b => simp [saveE]
      | .conflict alts => simp [saveE]
      | .memTree cs p1 p2 false =>
        rcases p2 with _ | v <;> rcases p1 with _ | h <;> simp [saveE]
      | .memTree cs p1 p2 true =>
        have hlt : sizeOf cs < k := by
          have : sizeOf cs < sizeOf (Entry.memTree cs p1 p2 true) := by simp <;> omega
          omega
        have hcs := (ih (sizeOf cs) hlt).2 cs le_rfl path st
        rcases hsc : saveChildren cs path st with ⟨cs', st', res⟩
        have hcs' : cs' = cs := by rw [hsc] at hcs; exact hcs
        subst hcs'
        cases res <;> simp [saveE, hsc]
    · intro cs hcs path st
      match cs with
      | [] => simp [saveChildren]
      | (n, e) :: rest =>
        have h1 : sizeOf e < k := by
          have : sizeOf e < sizeOf ((n, e) :: rest) := by simp <;> omega
          omega
        have h2 : sizeOf rest < k := by
          have : sizeOf rest < sizeOf ((n, e) :: rest) := by simp <;> omega
          omega
        have he := (ih (sizeOf e) h1).1 e le_rfl (extendRepoPath path n) st
        rcases hs : saveE e (extendRepoPath path n) st with ⟨e', st', res⟩
        have he' : e' = e := by rw [hs] at he; exact he
        subst he'
        cases res with
        | error err => simp [saveChildren, hs]
        | ok r =>
          have hr := (ih (sizeOf rest) h2).2 rest le_rfl path st'
          rcases hs2 : saveChildren rest path st' with ⟨rest', st'', res2⟩
          have hr' : rest' = rest := by rw [hs2] at hr; exact hr
          subst hr'
          cases res2 <;> simp [saveChildren, hs, hs2]

/-- C10: for every entry, path, store and outcome, the entry-level save leaves
the in-memory manifest unchanged — the entry held after `save` (which only
borrows the structure) is identical to the entry before it. -/
theorem save_reads_only (e : Entry) (path : RepoPath) (st : Store) :
    (saveE e path st).entry = e :=
  (frame_aux (sizeOf e)).1 e le_rfl path st

/-! ### C1: conflicts never save -/

/-- C1: a two-parent construction yields a root `conflict` holding the two
loaded parent trees, and saving any `conflict` entry fails with
`UnresolvedConflicts` while writing nothing to the store. -/
theorem conflict_save_unresolved (fuel : Nat) (stc : Store) (a b : Nat) (ta tb : Entry)
    (ha : convertTreenode fuel stc a = .ok ta) (hb : convertTreenode fuel stc b = .ok tb) :
    newRoot fuel stc (some a) (some b) = .ok (.conflict [ta, tb]) ∧
    ∀ alts path st,
      saveE (.conflict alts) path st = ⟨.conflict alts, st, .error .unresolvedConflicts⟩ := by
  refine ⟨?_, fun alts path st => rfl⟩
  simp [newRoot, ha, hb]

theorem conflict_save_unresolved_witness :
    newRoot 1 [(1, []), (2, [])] (some 1) (some 2) =
      .ok (.conflict [.memTree [] (some 1) none false, .memTree [] (some 2) none false]) ∧
    saveE (.conflict [.memTree [] (some 1) none false, .memTree [] (some 2) none false]) [] [] =
      ⟨.conflict [.memTree [] (some 1) none false, .memTree [] (some 2) none false], [],
        .error .unresolvedConflicts⟩ := by
  have h := conflict_save_unresolved 1 [(1, []), (2, [])] 1 2
    (.memTree [] (some 1) none false) (.memTree [] (some 2) none false) rfl rfl
  exact ⟨h.1, h.2 [.memTree [] (some 1) none false, .memTree [] (some 2) none false] [] []⟩

/-! ### C7: the insert operation -/

/-- C7: `insert_entry` on a Tree inserts or overwrites the binding and sets the
node's modified flag, leaving other bindings untouched; on a `blob` or a
`conflict` it fails with `NotATree`. -/
theorem insert_entry_spec (cs : List (Name × Entry)) (p1 p2 : Option Nat) (m : Bool)
    (b : HgBlobEntry) (alts : List Entry) (n n' : Name) (c : Entry) (hne : n' ≠ n) :
    insert_entry (.memTree cs p1 p2 m) n c = .ok (.memTree (childInsert n c cs) p1 p2 true) ∧
    childLookup n (childInsert n c cs) = some c ∧
    childLookup n' (childInsert n c cs) = childLookup n' cs ∧
    insert_entry (.blob b) n c = .error .notATree ∧
    insert_entry (.conflict alts) n c = .error .notATree :=
  ⟨rfl, childLookup_childInsert_self n c cs, childLookup_childInsert_ne n n' hne c cs,
    rfl, rfl⟩

theorem insert_entry_spec_witness :
    insert_entry (.memTree [] none none false) [97] (.blob ⟨none, 3, .file⟩) =
      .ok (.memTree (childInsert [97] (.blob ⟨none, 3, .file⟩) []) none none true) ∧
    childLookup [97] (childInsert [97] (.blob ⟨none, 3, .file⟩) []) =
      some (.blob ⟨none, 3, .file⟩) ∧
    childLookup [98] (childInsert [97] (.blob ⟨none, 3, .file⟩) []) = childLookup [98] [] ∧
    insert_entry (.blob ⟨none, 7, .file⟩) [97] (.blob ⟨none, 3, .file⟩) =
      .error .notATree ∧
    insert_entry (.conflict []) [97] (.blob ⟨none, 3, .file⟩) = .error .notATree :=
  insert_entry_spec [] none none false ⟨none, 7, .file⟩ [] [97] [98]
    (.blob ⟨none, 3, .file⟩) (by decide)

/-! ### C8: the empty construction -/

/-- C8: constructing with zero parents yields the empty unmodified tree with no
parents, and saving it unmutated fails with the unchanged-manifest error (the
spec's `UnchangedManifestMissingParent`) without writing anything. -/
theorem empty_root_save_fails (fuel : Nat) (st : Store) (st' : Store) :
    newRoot fuel st none none = .ok (.memTree [] none none false) ∧
    rootSave (.memTree [] none none false) st' =
      ⟨.memTree [] none none false, st', .error .unchangedManifest⟩ :=
  ⟨rfl, rfl⟩

/-! ### Helper lemmas: hex encoding -/

lemma encodeLE_length (h n : Nat) : (encodeLE h n).length = n := by
  induction n generalizing h with
  | zero => rfl
  | succ n ih => simp [encodeLE, ih]

lemma hexEncode_length (h : Nat) : (hexEncode h).length = 40 := by
  simp [hexEncode, encodeLE_length]

lemma hexVal_hexDigit {d : Nat} (hd : d < 16) : hexVal (hexDigit d) = d := by
  by_cases h10 : d < 10
  · rw [hexDigit, if_pos h10, hexVal, if_pos (by omega)]
    omega
  · rw [hexDigit, if_neg h10, hexVal, if_neg (by omega)]
    omega

lemma hexDecode_reverse_encodeLE : ∀ n h, h < 16 ^ n → hexDecode (encodeLE h n).reverse = h := by
  intro n
  induction n with
  | zero =>
    intro h hh
    simp [encodeLE, hexDecode]
    omega
  | succ n ih =>
    intro h hh
    have hdiv : h / 16 < 16 ^ n := by
      rw [Nat.pow_succ] at hh
      omega
    have hmod : h % 16 < 16 := Nat.mod_lt _ (by norm_num)
    calc hexDecode (encodeLE h (n + 1)).reverse
        = hexDecode ((encodeLE (h / 16) n).reverse ++ [hexDigit (h % 16)]) := by
          simp [encodeLE]
      _ = hexDecode (encodeLE (h / 16) n).reverse * 16 + hexVal (hexDigit (h % 16)) := by
          simp [hexDecode, List.foldl_append]
      _ = h / 16 * 16 + h % 16 := by rw [ih _ hdiv, hexVal_hexDigit hmod]
      _ = h := by omega

lemma hexDecode_hexEncode {h : Nat} (hh : h < 16 ^ 40) : hexDecode (hexEncode h) = h :=
  hexDecode_reverse_encodeLE 40 h hh

lemma mem_encodeLE_ge {b : Nat} : ∀ {n h : Nat}, b ∈ encodeLE h n → 48 ≤ b := by
  intro n
  induction n with
  | zero => intro h hb; simp [encodeLE] at hb
  | succ n ih =>
    intro h hb
    simp only [encodeLE, List.mem_cons] at hb
    rcases hb with rfl | hb
    · rw [hexDigit]; split <;> omega
    · exact ih hb

lemma mem_hexEncode_ge {b h : Nat} (hb : b ∈ hexEncode h) : 48 ≤ b :=
  mem_encodeLE_ge (by simpa [hexEncode] using hb)

lemma typeTag_ne_ten (t : FileType) : typeTag t ≠ 10 := by cases t <;> decide

lemma tagType_typeTag (t : FileType) : tagType (typeTag t) = some t := by cases t <;> rfl

/-! ### Helper lemmas: wire-format parsing -/

lemma splitLines_append {l rest : List Nat} (hl : ∀ b ∈ l, b ≠ 10) :
    splitLines (l ++ 10 :: rest) = l :: splitLines rest := by
  induction l with
  | nil => simp [splitLines]
  | cons b t ih =>
    have hb : b ≠ 10 := hl b (by simp)
    have ht : ∀ x ∈ t, x ≠ 10 := fun x hx => hl x (by simp [hx])
    simp [splitLines, hb, ih ht]

lemma takeWhile_append_zero {nm : List Nat} (r : List Nat) (h0 : ∀ b ∈ nm, b ≠ 0) :
    (nm ++ 0 :: r).takeWhile (fun b => b != 0) = nm := by
  induction nm with
  | nil => simp
  | cons b t ih =>
    have hb : b ≠ 0 := h0 b (by simp)
    simp [List.takeWhile_cons, hb, ih (fun x hx => h0 x (by simp [hx]))]

lemma drop_append_succ (nm r : List Nat) : (nm ++ 0 :: r).drop (nm.length + 1) = r := by
  induction nm with
  | nil => simp
  | cons b t ih => simpa using ih

lemma parseRecord_wire {nm : Name} {h : Nat} {t : FileType}
    (hne : nm ≠ []) (h0 : ∀ b ∈ nm, b ≠ 0) (hH : h < 16 ^ 40) :
    parseRecord (nm ++ 0 :: (hexEncode h ++ [typeTag t])) = some (nm, h, t) := by
  have htake := takeWhile_append_zero (hexEncode h ++ [typeTag t]) h0
  have hdrop := drop_append_succ nm (hexEncode h ++ [typeTag t])
  simp only [parseRecord, htake, hdrop, List.getLast?_concat, tagType_typeTag,
    List.dropLast_concat, List.length_append, hexEncode_length, List.length_eq_zero,
    List.length_cons, List.length_nil]
  rw [if_neg (by simp [hne])]
  rw [hexDecode_hexEncode hH]

lemma parseListing_serializeEntries :
    ∀ rs : List (Name × HgBlobEntry),
      (∀ x ∈ rs, x.1 ≠ [] ∧ ∀ b ∈ x.1, b ≠ 0 ∧ b ≠ 10) →
      (∀ x ∈ rs, x.2.hash < 16 ^ 40) →
      parseListing (serializeEntries rs) =
        some (rs.map (fun x => (x.1, x.2.hash, x.2.ty))) := by
  intro rs hname hh
  induction rs with
  | nil => rfl
  | cons x rest ih =>
    obtain ⟨n, r⟩ := x
    have h1 := hname (n, r) (by simp)
    have hh1 := hh (n, r) (by simp)
    have hno10 : ∀ b ∈ n ++ 0 :: (hexEncode r.hash ++ [typeTag r.ty]), b ≠ 10 := by
      intro b hb
      simp only [List.mem_append, List.mem_cons, List.mem_singleton] at hb
      rcases hb with hb | hb | hb | hb
      · exact ((h1.2 b hb).2)
      · omega
      · have := mem_hexEncode_ge hb; omega
      · rcases hb with rfl | hb
        · exact typeTag_ne_ten r.ty
        · simp at hb
    have hshape : serializeEntries ((n, r) :: rest) =
        (n ++ 0 :: (hexEncode r.hash ++ [typeTag r.ty])) ++ 10 :: serializeEntries rest := by
      simp [serializeEntries]
    have hsplit : splitLines (serializeEntries ((n, r) :: rest)) =
        (n ++ 0 :: (hexEncode r.hash ++ [typeTag r.ty])) :: splitLines (serializeEntries rest) := by
      rw [hshape, splitLines_append hno10]
    have ihr := ih (fun x hx => hname x (by simp [hx])) (fun x hx => hh x (by simp [hx]))
    simp only [parseListing] at ihr ⊢
    rw [hsplit]
    simp only [List.mapM_cons, parseRecord_wire h1.1 (fun b hb => (h1.2 b hb).1) hh1, ihr]
    rfl

/-! ### Helper lemmas: the parent loader -/

lemma convert_ok_shape : ∀ {fuel : Nat} {st : Store} {id : Nat} {e : Entry},
    convertTreenode fuel st id = .ok e → ∃ cs, e = .memTree cs (some id) none false := by
  intro fuel st id e h
  match fuel with
  | 0 => simp [convertTreenode] at h
  | f + 1 =>
    simp only [convertTreenode] at h
    split at h
    · simp at h
    · split at h
      · simp at h
      · rename_i cs hF
        simp at h
        exact ⟨cs, h.symm⟩

lemma convertFold_lookup_of_notMem {conv : Nat → Except ErrorKind Entry} :
    ∀ (l : List LRec) (acc cs : List (Name × Entry)) (m : Name),
      convertFold conv l acc = .ok cs → m ∉ l.map (fun x => x.1) →
      childLookup m cs = childLookup m acc := by
  intro l
  induction l with
  | nil =>
    intro acc cs m h hm
    simp [convertFold] at h
    rw [h]
  | cons y rest ih =>
    obtain ⟨n, h0, t⟩ := y
    intro acc cs m hc hm
    simp only [List.map_cons, List.mem_cons] at hm
    push_neg at hm
    simp only [convertFold] at hc
    split at hc
    · simp at hc
    · rename_i ent hE
      rw [ih _ _ m hc hm.2, childLookup_childInsert_ne n m hm.1 ent acc]

lemma convertFold_mem {conv : Nat → Except ErrorKind Entry} :
    ∀ (l : List LRec) (acc cs : List (Name × Entry)),
      convertFold conv l acc = .ok cs → (l.map (fun x => x.1)).Nodup →
      ∀ x ∈ l, ∃ ent, childLookup x.1 cs = some ent ∧
        (x.2.2 = .tree → conv x.2.1 = .ok ent) ∧
        (x.2.2 ≠ .tree → ent = .blob ⟨some x.1, x.2.1, x.2.2⟩) := by
  intro l
  induction l with
  | nil => intro acc cs _ _ x hx; simp at hx
  | cons y rest ih =>
    obtain ⟨n, h0, t⟩ := y
    intro acc cs hc hnd x hx
    simp only [List.map_cons, List.nodup_cons] at hnd
    simp only [convertFold] at hc
    split at hc
    · simp at hc
    · rename_i ent hE
      rcases List.mem_cons.mp hx with rfl | hx2
      · refine ⟨ent, ?_, ?_, ?_⟩
        · show childLookup n cs = some ent
          rw [convertFold_lookup_of_notMem rest _ cs n hc hnd.1,
            childLookup_childInsert_self]
        · show t = FileType.tree → conv h0 = .ok ent
          intro ht
          rw [ht] at hE
          simpa using hE
        · show t ≠ FileType.tree → ent = .blob ⟨some n, h0, t⟩
          intro ht
          cases t with
          | tree => exact absurd rfl ht
          | file => simp at hE; exact hE.symm
          | executable => simp at hE; exact hE.symm
          | symlink => simp at hE; exact hE.symm
      · exact ih _ _ hc hnd.2 x hx2

/-! ### C4: the parent loader's contract -/

/-- C4: the parent loader fails with the manifest-missing error (the spec's
`TreeMissing`) when the identifier has no listing in the store; when it succeeds
it returns a Tree with `p1 = some id`, `p2 = none`, `modified = false` whose
children map binds every listed child name — recursively converted for
directory children, a leaf with the child's identifier and type otherwise. -/
theorem convert_treenode_spec (fuel : Nat) (st : Store) (id : Nat) :
    (loadListing st id = none →
      convertTreenode (fuel + 1) st id = .error (.manifestMissing id)) ∧
    (∀ listing e, loadListing st id = some listing →
      (listing.map (fun x => x.1)).Nodup →
      convertTreenode (fuel + 1) st id = .ok e →
      ∃ cs, e = .memTree cs (some id) none false ∧
        ∀ x ∈ listing, ∃ ent, childLookup x.1 cs = some ent ∧
          (x.2.2 = .tree → convertTreenode fuel st x.2.1 = .ok ent) ∧
          (x.2.2 ≠ .tree → ent = .blob ⟨some x.1, x.2.1, x.2.2⟩)) := by
  constructor
  · intro hL
    simp [convertTreenode, hL]
  · intro listing e hL hnd hc
    simp only [convertTreenode, hL] at hc
    split at hc
    · simp at hc
    · rename_i cs hF
      simp at hc
      exact ⟨cs, hc.symm, convertFold_mem listing [] cs hF hnd⟩

/-- Concrete two-entry store used to exercise the parent loader: identifier 1
holds a listing with one file child and one directory child (identifier 2,
an empty tree). -/
def stW : Store :=
  [(1, [97, 0] ++ hexEncode 5 ++ [102, 10, 100, 0] ++ hexEncode 2 ++ [116, 10]), (2, [])]

theorem convert_treenode_spec_witness :
    convertTreenode 1 [] 5 = .error (.manifestMissing 5) ∧
    ∃ cs, (Entry.memTree [([97], Entry.blob ⟨some [97], 5, FileType.file⟩),
        ([100], Entry.memTree [] (some 2) none false)] (some 1) none false) =
        Entry.memTree cs (some 1) none false ∧
      ∀ x ∈ [([97], 5, FileType.file), ([100], 2, FileType.tree)], ∃ ent,
        childLookup x.1 cs = some ent ∧
        (x.2.2 = FileType.tree → convertTreenode 1 stW x.2.1 = .ok ent) ∧
        (x.2.2 ≠ FileType.tree → ent = .blob ⟨some x.1, x.2.1, x.2.2⟩) := by
  constructor
  · exact (convert_treenode_spec 0 [] 5).1 rfl
  · exact (convert_treenode_spec 1 stW 1).2
      [([97], 5, FileType.file), ([100], 2, FileType.tree)] _ rfl (by decide) rfl

/-! ### C3: unmodified single-parent manifests pass through -/

/-- C3: a manifest constructed from a single parent and saved with no
intervening mutation succeeds, returns a reference whose identifier is the
original parent identifier, and performs zero store writes. -/
theorem single_parent_passthrough (fuel : Nat) (st : Store) (p : Nat) (e : Entry)
    (st0 : Store) (h : newRoot fuel st (some p) none = .ok e) :
    rootSave e st0 = ⟨e, st0, .ok ⟨none, p, .tree⟩⟩ := by
  have hc : convertTreenode fuel st p = .ok e := by simpa [newRoot] using h
  obtain ⟨cs, rfl⟩ := convert_ok_shape hc
  rfl

theorem single_parent_passthrough_witness :
    newRoot 1 [(7, [])] (some 7) none = .ok (.memTree [] (some 7) none false) ∧
    rootSave (.memTree [] (some 7) none false) [] =
      ⟨.memTree [] (some 7) none false, [], .ok ⟨none, 7, .tree⟩⟩ :=
  ⟨rfl, single_parent_passthrough 1 [(7, [])] 7 _ [] rfl⟩

/-! ### C6: insert, save, re-load round trip -/

/-- C6: starting from the empty zero-parent root, inserting at name `dir` an
unmodified subtree referencing an existing identifier `H` and saving writes one
tree blob; re-loading that blob's listing and looking up `dir` returns a record
whose identifier is `H`. -/
theorem insert_save_reload (H : Nat) (csSub : List (Name × Entry)) (st : Store)
    (hH : H < 16 ^ 40) :
    insert_entry (.memTree [] none none false) [100, 105, 114]
        (.memTree csSub (some H) none false) =
      .ok (.memTree [([100, 105, 114], .memTree csSub (some H) none false)]
        none none true) ∧
    ∃ nid bytes,
      rootSave (.memTree [([100, 105, 114], .memTree csSub (some H) none false)]
          none none true) st =
        ⟨.memTree [([100, 105, 114], .memTree csSub (some H) none false)] none none true,
          (nid, bytes) :: st, .ok ⟨none, nid, .tree⟩⟩ ∧
      (loadListing ((nid, bytes) :: st) nid).bind (listingFind [100, 105, 114]) =
        some ([100, 105, 114], H, .tree) := by
  refine ⟨rfl, hashBytes (serializeEntries
      [([100, 105, 114], ⟨some [100, 105, 114], H, .tree⟩)]),
    serializeEntries [([100, 105, 114], ⟨some [100, 105, 114], H, .tree⟩)], ?_, ?_⟩
  · rfl
  · have hp := parseListing_serializeEntries
      [([100, 105, 114], ⟨some [100, 105, 114], H, .tree⟩)]
      (by
        intro x hx
        simp only [List.mem_singleton] at hx
        subst hx
        refine ⟨by simp, fun b hb => ?_⟩
        simp only [List.mem_cons, List.not_mem_nil, or_false] at hb
        rcases hb with rfl | rfl | rfl <;> exact ⟨by decide, by decide⟩)
      (by
        intro x hx
        simp only [List.mem_singleton] at hx
        subst hx
        exact hH)
    simp only [List.map] at hp
    simp [loadListing, storeLookup, hp, listingFind, List.find?]

/-! ### C2: the serialized record format -/

lemma serializeEntries_eq_specSerialize (rs : List (Name × HgBlobEntry)) :
    serializeEntries rs = specSerialize rs := by
  induction rs with
  | nil => rfl
  | cons x rest ih =>
    obtain ⟨n, r⟩ := x
    simp [serializeEntries, specSerialize, specRecord, ih]

lemma saveChildren_names :
    ∀ (cs : List (Name × Entry)) (path : RepoPath) (st : Store)
      (cs' : List (Name × Entry)) (st' : Store) (rs : List (Name × HgBlobEntry)),
      saveChildren cs path st = ⟨cs', st', .ok rs⟩ →
      rs.map (fun r => r.1) = cs.map (fun c => c.1) := by
  intro cs
  induction cs with
  | nil =>
    intro path st cs' st' rs h
    simp only [saveChildren, SaveChildrenOut.mk.injEq, Except.ok.injEq] at h
    rw [← h.2.2]
    simp
  | cons x rest ih =>
    obtain ⟨n, e⟩ := x
    intro path st cs' st' rs h
    rcases hs1 : saveE e (extendRepoPath path n) st with ⟨e1, st1, res1⟩
    cases res1 with
    | error err =>
      simp only [saveChildren, hs1] at h
      simp at h
    | ok r =>
      rcases hs2 : saveChildren rest path st1 with ⟨rest1, st2, res2⟩
      cases res2 with
      | error err =>
        simp only [saveChildren, hs1, hs2] at h
        simp at h
      | ok rs2 =>
        simp only [saveChildren, hs1, hs2, SaveChildrenOut.mk.injEq, Except.ok.injEq] at h
        obtain ⟨-, -, hrs⟩ := h
        rw [← hrs]
        simp [ih path st1 rest1 st2 rs2 hs2]

/-- C2: when saving a modified Tree whose children all save successfully, the
blob written to the store is exactly the concatenation, over the children in
ascending byte-wise name order, of `name NUL hex-identifier type-tag LF`
records, and the tree's identifier is the content hash of those bytes. -/
theorem save_serialization (cs : List (Name × Entry)) (p1 p2 : Option Nat)
    (path : RepoPath) (st : Store) (cs' : List (Name × Entry)) (st' : Store)
    (rs : List (Name × HgBlobEntry))
    (hsorted : List.Chain' (fun a b : Name × Entry => nameLt a.1 b.1 = true) cs)
    (hsc : saveChildren cs path st = ⟨cs', st', .ok rs⟩) :
    List.Chain' (fun a b : Name × HgBlobEntry => nameLt a.1 b.1 = true) rs ∧
    saveE (.memTree cs p1 p2 true) path st =
      ⟨.memTree cs' p1 p2 true,
        (hashBytes (specSerialize rs), specSerialize rs) :: st',
        .ok ⟨pathBasename path, hashBytes (specSerialize rs), .tree⟩⟩ := by
  constructor
  · have hnames := saveChildren_names cs path st cs' st' rs hsc
    have h1 : List.Chain' (fun a b : Name => nameLt a b = true) (rs.map (fun r => r.1)) := by
      rw [hnames]
      exact (List.chain'_map (fun c : Name × Entry => c.1)).mpr hsorted
    exact (List.chain'_map (fun r : Name × HgBlobEntry => r.1)).mp h1
  · simp only [saveE, hsc]
    rw [serializeEntries_eq_specSerialize]

theorem save_serialization_witness :
    List.Chain' (fun a b : Name × HgBlobEntry => nameLt a.1 b.1 = true)
      [([97], ⟨some [97], 3, .file⟩), ([98], ⟨some [98], 4, .tree⟩)] ∧
    saveE (.memTree [([97], .blob ⟨some [97], 3, .file⟩),
        ([98], .memTree [] (some 4) none false)] none none true) [] [] =
      ⟨.memTree [([97], .blob ⟨some [97], 3, .file⟩),
          ([98], .memTree [] (some 4) none false)] none none true,
        (hashBytes (specSerialize [([97], ⟨some [97], 3, .file⟩), ([98], ⟨some [98], 4, .tree⟩)]),
          specSerialize [([97], ⟨some [97], 3, .file⟩), ([98], ⟨some [98], 4, .tree⟩)]) :: [],
        .ok ⟨pathBasename [], hashBytes (specSerialize
          [([97], ⟨some [97], 3, .file⟩), ([98], ⟨some [98], 4, .tree⟩)]), .tree⟩⟩ :=
  save_serialization
    [([97], .blob ⟨some [97], 3, .file⟩), ([98], .memTree [] (some 4) none false)]
    none none [] []
    [([97], .blob ⟨some [97], 3, .file⟩), ([98], .memTree [] (some 4) none false)]
    [] [([97], ⟨some [97], 3, .file⟩), ([98], ⟨some [98], 4, .tree⟩)]
    (by simp [List.chain'_cons, nameLt]) rfl

/-! ### C5: identifiers are a pure function of content -/

lemma pathBasename_extend (p : RepoPath) (d : Name) :
    pathBasename (extendRepoPath p d) = some d := by
  simp [pathBasename, extendRepoPath]

lemma save_result_agnostic : ∀ k : Nat,
    (∀ e : Entry, sizeOf e ≤ k → ∀ p p' st st', pathBasename p = pathBasename p' →
       (saveE e p st).result = (saveE e p' st').result) ∧
    (∀ cs : List (Name × Entry), sizeOf cs ≤ k → ∀ p p' st st',
       (saveChildren cs p st).result = (saveChildren cs p' st').result) := by
  intro k
  induction k using Nat.strong_induction_on with
  | _ k ih =>
    constructor
    · intro e he p p' st st' hb
      match e with
      | .blob b => simp [saveE]
      | .conflict alts => simp [saveE]
      | .memTree cs q1 q2 false =>
        rcases q2 with _ | v
        · rcases q1 with _ | h <;> simp [saveE, hb]
        · simp [saveE]
      | .memTree cs q1 q2 true =>
        have hlt : sizeOf cs < k := by
          have : sizeOf cs < sizeOf (Entry.memTree cs q1 q2 true) := by simp <;> omega
          omega
        have hch := (ih (sizeOf cs) hlt).2 cs le_rfl p p' st st'
        rcases h1 : saveChildren cs p st with ⟨cs1, st1, res1⟩
        rcases h2 : saveChildren cs p' st' with ⟨cs2, st2, res2⟩
        rw [h1, h2] at hch
        have hee : res1 = res2 := hch
        subst hee
        cases res1 <;> simp [saveE, h1, h2, hb]
    · intro cs hcs p p' st st'
      match cs with
      | [] => simp [saveChildren]
      | (n, e) :: rest =>
        have h1 : sizeOf e < k := by
          have : sizeOf e < sizeOf ((n, e) :: rest) := by simp <;> omega
          omega
        have h2 : sizeOf rest < k := by
          have : sizeOf rest < sizeOf ((n, e) :: rest) := by simp <;> omega
          omega
        have hee := (ih (sizeOf e) h1).1 e le_rfl (extendRepoPath p n)
          (extendRepoPath p' n) st st' (by simp [pathBasename_extend])
        rcases hs1 : saveE e (extendRepoPath p n) st with ⟨e1, st1, res1⟩
        rcases hs2 : saveE e (extendRepoPath p' n) st' with ⟨e2, st2, res2⟩
        rw [hs1, hs2] at hee
        have hee' : res1 = res2 := hee
        subst hee'
        cases res1 with
        | error err => simp [saveChildren, hs1, hs2]
        | ok r =>
          have hrest := (ih (sizeOf rest) h2).2 rest le_rfl p p' st1 st2
          rcases hr1 : saveChildren rest p st1 with ⟨l1, s1, q1⟩
          rcases hr2 : saveChildren rest p' st2 with ⟨l2, s2, q2⟩
          rw [hr1, hr2] at hrest
          have hq : q1 = q2 := hrest
          subst hq
          cases q1 <;> simp [saveChildren, hs1, hs2, hr1, hr2]

/-- C5: the identifier a save returns is a pure function of the in-memory
content — independent of the store contents and of the path the entry sits at.
In particular saving the same final state twice yields the same root identifier,
and structurally identical subtrees at different paths receive identical
content identifiers. -/
theorem save_content_addressed (e : Entry) (p p' : RepoPath) (st st' : Store) :
    (saveE e p st).result.map (fun r => r.hash) =
      (saveE e p' st').result.map (fun r => r.hash) := by
  match e with
  | .blob b => rfl
  | .conflict alts => rfl
  | .memTree cs q1 q2 false =>
    rcases q2 with _ | v
    · rcases q1 with _ | h <;> rfl
    · rfl
  | .memTree cs q1 q2 true =>
    have hch := (save_result_agnostic (sizeOf cs)).2 cs le_rfl p p' st st'
    rcases h1 : saveChildren cs p st with ⟨cs1, st1, res1⟩
    rcases h2 : saveChildren cs p' st' with ⟨cs2, st2, res2⟩
    rw [h1, h2] at hch
    have hee : res1 = res2 := hch
    subst hee
    cases res1 <;> simp [saveE, h1, h2, Except.map]

/-! ### C9: the modified/p2 invariant and the save assertion -/

lemma convertFold_inv {conv : Nat → Except ErrorKind Entry}
    (hconv : ∀ id e, conv id = .ok e → EntryInv e) :
    ∀ (l : List LRec) (acc cs : List (Name × Entry)),
      (∀ x ∈ acc, EntryInv x.2) → convertFold conv l acc = .ok cs →
      ∀ x ∈ cs, EntryInv x.2 := by
  intro l
  induction l with
  | nil =>
    intro acc cs hacc h
    simp only [convertFold, Except.ok.injEq] at h
    subst h
    exact hacc
  | cons y rest ih =>
    obtain ⟨n, h0, t⟩ := y
    intro acc cs hacc hc
    simp only [convertFold] at hc
    split at hc
    · simp at hc
    · rename_i ent hE
      refine ih _ _ ?_ hc
      intro x hx
      rcases mem_childInsert hx with rfl | hmem
      · show EntryInv ent
        cases t with
        | tree => exact hconv h0 ent (by simpa using hE)
        | file => simp at hE; rw [← hE]; exact EntryInv.blob _
        | executable => simp at hE; rw [← hE]; exact EntryInv.blob _
        | symlink => simp at hE; rw [← hE]; exact EntryInv.blob _
      · exact hacc x hmem

lemma convert_inv : ∀ (fuel : Nat) (st : Store) (id : Nat) (e : Entry),
    convertTreenode fuel st id = .ok e → EntryInv e := by
  intro fuel
  induction fuel with
  | zero => intro st id e h; simp [convertTreenode] at h
  | succ f ih =>
    intro st id e h
    simp only [convertTreenode] at h
    split at h
    · simp at h
    · split at h
      · simp at h
      · rename_i cs hF
        simp only [Except.ok.injEq] at h
        subst h
        exact EntryInv.memTree cs (some _) none false (fun _ => rfl)
          (convertFold_inv (fun i e' he' => ih st i e' he') _ [] cs (by simp) hF)

lemma insert_entry_inv {t : Entry} {n : Name} {c t' : Entry}
    (ht : EntryInv t) (hc : EntryInv c) (h : insert_entry t n c = .ok t') :
    EntryInv t' := by
  cases t with
  | blob b => simp [insert_entry] at h
  | conflict alts => simp [insert_entry] at h
  | memTree cs p1 p2 m =>
    simp only [insert_entry, Except.ok.injEq] at h
    subst h
    refine EntryInv.memTree _ p1 p2 true (by simp) ?_
    intro x hx
    rcases mem_childInsert hx with rfl | hmem
    · exact hc
    · cases ht with
      | memTree _ _ _ _ hp hch => exact hch x hmem

lemma newRoot_inv : ∀ {fuel : Nat} {st : Store} {mp1 mp2 : Option Nat} {e : Entry},
    newRoot fuel st mp1 mp2 = .ok e → EntryInv e := by
  intro fuel st mp1 mp2 e h
  match mp1, mp2 with
  | none, none =>
    simp only [newRoot, Except.ok.injEq] at h
    subst h
    exact EntryInv.memTree [] none none false (fun _ => rfl) (by simp)
  | some p, none => exact convert_inv _ _ _ _ (by simpa [newRoot] using h)
  | none, some p => exact convert_inv _ _ _ _ (by simpa [newRoot] using h)
  | some a, some b =>
    simp only [newRoot] at h
    split at h
    · simp at h
    · rename_i ta hta
      split at h
      · simp at h
      · rename_i tb htb
        simp only [Except.ok.injEq] at h
        subst h
        refine EntryInv.conflict _ ?_
        intro x hx
        rcases List.mem_cons.mp hx with rfl | hx
        · exact convert_inv _ _ _ _ hta
        · rcases List.mem_cons.mp hx with rfl | hx
          · exact convert_inv _ _ _ _ htb
          · simp at hx

lemma reachable_inv {e : Entry} (h : Reachable e) : EntryInv e := by
  induction h with
  | ofBlob b => exact EntryInv.blob b
  | ofNewRoot fuel st mp1 mp2 e h => exact newRoot_inv h
  | ofConvert fuel st id e h => exact convert_inv _ _ _ _ h
  | ofInsert t n c t' ht hc hi iht ihc => exact insert_entry_inv iht ihc hi

lemma inv_no_assert : ∀ k : Nat,
    (∀ e : Entry, sizeOf e ≤ k → EntryInv e → ∀ path st,
       (saveE e path st).result ≠ .error .assertionFailed) ∧
    (∀ cs : List (Name × Entry), sizeOf cs ≤ k → (∀ x ∈ cs, EntryInv x.2) → ∀ path st,
       (saveChildren cs path st).result ≠ .error .assertionFailed) := by
  intro k
  induction k using Nat.strong_induction_on with
  | _ k ih =>
    constructor
    · intro e he hInv path st
      match e with
      | .blob b => simp [saveE]
      | .conflict alts => simp [saveE]
      | .memTree cs q1 q2 false =>
        have hq2 : q2 = none := by
          cases hInv with
          | memTree _ _ _ _ hp _ => exact hp rfl
        subst hq2
        rcases q1 with _ | h <;> simp [saveE]
      | .memTree cs q1 q2 true =>
        have hlt : sizeOf cs < k := by
          have : sizeOf cs < sizeOf (Entry.memTree cs q1 q2 true) := by simp <;> omega
          omega
        have hcsInv : ∀ x ∈ cs, EntryInv x.2 := by
          cases hInv with
          | memTree _ _ _ _ _ hch => exact hch
        have hch := (ih (sizeOf cs) hlt).2 cs le_rfl hcsInv path st
        rcases h1 : saveChildren cs path st with ⟨cs1, st1, res1⟩
        rw [h1] at hch
        have hres : res1 ≠ .error .assertionFailed := hch
        cases res1 with
        | error err =>
          simp [saveE, h1]
          intro hcontra
          exact hres (by rw [hcontra])
        | ok rs => simp [saveE, h1]
    · intro cs hcs hInv path st
      match cs with
      | [] => simp [saveChildren]
      | (n, e) :: rest =>
        have h1 : sizeOf e < k := by
          have : sizeOf e < sizeOf ((n, e) :: rest) := by simp <;> omega
          omega
        have h2 : sizeOf rest < k := by
          have : sizeOf rest < sizeOf ((n, e) :: rest) := by simp <;> omega
          omega
        have heInv : EntryInv e := hInv (n, e) (by simp)
        have hrestInv : ∀ x ∈ rest, EntryInv x.2 := fun x hx => hInv x (by simp [hx])
        have hhead := (ih (sizeOf e) h1).1 e le_rfl heInv (extendRepoPath path n) st
        rcases hs1 : saveE e (extendRepoPath path n) st with ⟨e1, st1, res1⟩
        rw [hs1] at hhead
        have hres1 : res1 ≠ .error .assertionFailed := hhead
        cases res1 with
        | error err =>
          simp [saveChildren, hs1]
          intro hcontra
          exact hres1 (by rw [hcontra])
        | ok r =>
          have htail := (ih (sizeOf rest) h2).2 rest le_rfl hrestInv path st1
          rcases hs2 : saveChildren rest path st1 with ⟨l1, s1, q1⟩
          rw [hs2] at htail
          have hq1 : q1 ≠ .error .assertionFailed := htail
          cases q1 with
          | error err =>
            simp [saveChildren, hs1, hs2]
            intro hcontra
            exact hq1 (by rw [hcontra])
          | ok rs => simp [saveChildren, hs1, hs2]

/-- C9: every entry reachable through the engine's operations (leaf references,
zero/one/two-parent construction, parent loading, insert) satisfies the
invariant that an unmodified tree has no second parent, and consequently the
internal-consistency assertion in `save` never fires on such values. -/
theorem reachable_inv_no_assert (e : Entry) (h : Reachable e) :
    EntryInv e ∧ ∀ path st, (saveE e path st).result ≠ .error .assertionFailed :=
  ⟨reachable_inv h,
    fun path st => (inv_no_assert (sizeOf e)).1 e le_rfl (reachable_inv h) path st⟩

theorem reachable_inv_no_assert_witness :
    EntryInv (.memTree [] none none false) ∧
    (saveE (.memTree [] none none false) [] []).result ≠ .error .assertionFailed := by
  have h := reachable_inv_no_assert (.memTree [] none none false)
    (Reachable.ofNewRoot 1 [] none none _ rfl)
  exact ⟨h.1, h.2 [] []⟩

theorem insert_save_reload_witness :
    insert_entry (.memTree [] none none false) [100, 105, 114]
        (.memTree [] (some 5) none false) =
      .ok (.memTree [([100, 105, 114], .memTree [] (some 5) none false)] none none true) ∧
    ∃ nid bytes,
      rootSave (.memTree [([100, 105, 114], .memTree [] (some 5) none false)]
          none none true) [] =
        ⟨.memTree [([100, 105, 114], .memTree [] (some 5) none false)] none none true,
          (nid, bytes) :: [], .ok ⟨none, nid, .tree⟩⟩ ∧
      (loadListing ((nid, bytes) :: []) nid).bind (listingFind [100, 105, 114]) =
        some ([100, 105, 114], 5, .tree) :=
  insert_save_reload 5 [] [] (by decide)
